import Mathlib

/-!
Verification of the 2048-style board game (pow2_game), faithful shallow
embedding of `src/cell/mod.rs` and `src/board/mod.rs`.

Machine integers (`usize`) are modelled as `Nat` with the 64-bit width made
explicit where overflow matters.  Rust panics (failed `assert!`, `unwrap()`
on `Err`, out-of-bounds indexing) are modelled as a distinguished outcome
(`none` of an outer `Option`, or a `fatal` constructor); recoverable
`Result::Err(())` values are modelled as `Except.error ()` / dedicated
error constructors.
-/

namespace Pow2

/-- Number of bits of `usize` (the repository targets 64-bit). -/
def usizeBits : Nat := 64

/-- `1 << (usize::BITS - 1)`, the most significant bit / largest
representable power of two. -/
def msbSet : Nat := 2 ^ (usizeBits - 1)

/-- Fuel-driven population count; `fuel ≥ n` makes it exact.  Structural in
the fuel so that it reduces inside the kernel. -/
def countOnesAux : Nat → Nat → Nat
  | _, 0 => 0
  | 0, _ => 0
  | fuel + 1, n + 1 => (n + 1) % 2 + countOnesAux fuel ((n + 1) / 2)

/-- Model of Rust `usize::count_ones`: number of set bits of `n`. -/
def countOnes (n : Nat) : Nat := countOnesAux n n

/-- The representation of a cell on the game board (`struct Cell(usize)`). -/
structure Cell where
  value : Nat
deriving DecidableEq

/-- Outcome of `Cell::grow`: `fatal` models a failed `assert!` (panic),
`err` the recoverable `Err(())`, `ok` the success with the updated cell. -/
inductive GrowResult where
  | fatal
  | err
  | ok (c : Cell)
deriving DecidableEq

/-- `Cell::grow`: doubles the value (`self.0 <<= 1`, i.e. `· * 2 % 2^64`)
after asserting the value is a power of two greater than one; returns
`err` when the value is already the most significant bit. -/
def Cell.grow (c : Cell) : GrowResult :=
  if countOnes c.value ≠ 1 then GrowResult.fatal
  else if c.value ≤ 1 then GrowResult.fatal
  else if c.value = msbSet then GrowResult.err
  else GrowResult.ok ⟨c.value * 2 % 2 ^ usizeBits⟩

/-- Outcome of `Cell::merge`: `fatal` models the panic of
`self.grow().unwrap()`, `err` the recoverable unequal-values failure,
`ok m` the success where `self` has become `m` (the caller clears the
other slot). -/
inductive MergeResult where
  | fatal
  | err
  | ok (c : Cell)
deriving DecidableEq

/-- `Cell::merge`: iff the two cells are equal (`*self == *other`, derived
`PartialEq` compares the wrapped values), `self` grows and the result is
returned; otherwise `Err(())`. -/
def Cell.merge (a b : Cell) : MergeResult :=
  if a = b then
    match a.grow with
    | GrowResult.ok c => MergeResult.ok c
    | _ => MergeResult.fatal
  else MergeResult.err

/-- `Cell::new`: panics (`none`) unless the value is a power of two with at
least the value two (`value.count_ones() != 1 || value < 2`). -/
def Cell.new (value : Nat) : Option Cell :=
  if countOnes value ≠ 1 ∨ value < 2 then none else some ⟨value⟩

/-- `Cell::default`: value 4 with probability `CHANCE_OF_FOUR`, else 2; the
random draw is an injected boolean. -/
def Cell.default (four : Bool) : Cell := ⟨if four then 4 else 2⟩

/-! ### The line reducer (`Board::get_mergeable`, `Board::shift_group`) -/

/-- State of the scan in `Board::get_mergeable`: the accumulated pairs and
the `RefCell { index, value }` reference to the pending cell. -/
structure MergeScan where
  pairs : List (Nat × Nat)
  rcIdx : Option Nat
  rcVal : Option Nat

/-- One step of the `Board::get_mergeable` scan over `(idx, cell_opt)`. -/
def mergeScanStep (st : MergeScan) (p : Nat × Option Cell) : MergeScan :=
  match p.2 with
  | none => st
  | some cc =>
    match st.rcIdx, st.rcVal with
    | some ri, some rv =>
      if cc.value = rv then ⟨st.pairs ++ [(ri, p.1)], none, none⟩
      else ⟨st.pairs, some p.1, some cc.value⟩
    | _, _ => ⟨st.pairs, some p.1, some cc.value⟩

/-- `Board::get_mergeable`: index pairs of equal-valued cells that merge in
one pass, scanning left to right with a resettable pending reference. -/
def Board.get_mergeable (cells : List (Option Cell)) : List (Nat × Nat) :=
  (cells.enum.foldl mergeScanStep ⟨[], none, none⟩).pairs

/-- One merge of `Board::shift_group`: `split_at_mut(pair.1)` and the two
indexings panic unless `pair.0 < pair.1 < len` and both slots are occupied;
`merge(..).unwrap()` panics unless the merge succeeds; on success slot
`pair.0` holds the grown cell and slot `pair.1` is cleared.  `none` models
the panic. -/
def mergeOnePair (l : List (Option Cell)) (i j : Nat) : Option (List (Option Cell)) :=
  if i < j ∧ j < l.length then
    match l.getD i none, l.getD j none with
    | some a, some b =>
      match Cell.merge a b with
      | MergeResult.ok m => some ((l.set i (some m)).set j none)
      | _ => none
    | _, _ => none
  else none

/-- The `for pair in mergeable` loop of `Board::shift_group`. -/
def mergePairs (l : List (Option Cell)) : List (Nat × Nat) → Option (List (Option Cell))
  | [] => some l
  | p :: ps =>
    match mergeOnePair l p.1 p.2 with
    | some l' => mergePairs l' ps
    | none => none

/-- State of the shift loop in `Board::shift_group`: the vector being
mutated, the pending swap index (`swpidx`) and the `valid` flag. -/
structure ShiftState where
  res : List (Option Cell)
  swp : Option Nat
  valid : Bool

/-- `result.swap(i, j)` on a list. -/
def listSwap (l : List (Option Cell)) (i j : Nat) : List (Option Cell) :=
  (l.set i (l.getD j none)).set j (l.getD i none)

/-- One iteration of the shift loop of `Board::shift_group`, matching on
`(swpidx.is_some(), result[idx].is_some())`. -/
def shiftStep (st : ShiftState) (idx : Nat) : ShiftState :=
  match st.swp, st.res.getD idx none with
  | none, none => ⟨st.res, some idx, st.valid⟩
  | some s, some _ => ⟨listSwap st.res s idx, none, true⟩
  | _, _ => st

/-- The full shift loop (`for idx in 0..result.len()`), started with the
given `valid` flag. -/
def shiftPassSt (l : List (Option Cell)) (v : Bool) : ShiftState :=
  (List.range l.length).foldl shiftStep ⟨l, none, v⟩

/-- `Board::shift_group`: merge the pairs found by `get_mergeable`, run the
shift loop, and return `Some(result)` iff `valid`.  The outer `Option`
models a panic inside the merge loop (`none` = panic). -/
def Board.shift_group (cells : List (Option Cell)) :
    Option (Option (List (Option Cell))) :=
  let mergeable := Board.get_mergeable cells
  match mergePairs cells mergeable with
  | none => none
  | some merged =>
    let st := shiftPassSt merged (!mergeable.isEmpty)
    some (if st.valid then some st.res else none)

/-! ### The board -/

/-- `BOARD_COLS`. -/
def BOARD_COLS : Nat := 4
/-- `BOARD_ROWS`. -/
def BOARD_ROWS : Nat := 4
/-- `HISTORY_SIZE`: maximum number of undos retained. -/
def HISTORY_SIZE : Nat := 1

/-- `BoardGrid`: the 4×4 array of optional cells, indexed (row, col). -/
abbrev BoardGrid := Fin BOARD_ROWS → Fin BOARD_COLS → Option Cell

/-- The game board: current grid and the saved past states. -/
structure Board where
  grid : BoardGrid
  history : List BoardGrid

/-- `Board::get_cells_by_emptiness_row`: coordinates in `row` whose
emptiness matches `is_empty`, in column order. -/
def Board.get_cells_by_emptiness_row (b : Board) (is_empty : Bool)
    (row : Fin BOARD_ROWS) : List (Fin BOARD_ROWS × Fin BOARD_COLS) :=
  ((List.finRange BOARD_COLS).filter
    (fun col => is_empty == (b.grid row col).isNone)).map (fun col => (row, col))

/-- `Board::get_cells_by_emptiness`: all matching coordinates, row-major. -/
def Board.get_cells_by_emptiness (b : Board) (is_empty : Bool) :
    List (Fin BOARD_ROWS × Fin BOARD_COLS) :=
  (List.finRange BOARD_ROWS).flatMap (fun row => b.get_cells_by_emptiness_row is_empty row)

/-- `Board::spawn_at`: spawn a default cell at `pos` if that slot is empty,
`Err(())` otherwise.  The bounds asserts hold by the `Fin` types.  The
random 2-vs-4 draw of `Cell::default` is the injected `four`. -/
def Board.spawn_at (b : Board) (pos : Fin BOARD_ROWS × Fin BOARD_COLS)
    (four : Bool) : Except Unit Board :=
  if b.grid pos.1 pos.2 = none then
    Except.ok { b with grid := fun r c =>
      if r = pos.1 ∧ c = pos.2 then some (Cell.default four) else b.grid r c }
  else Except.error ()

/-- `Board::spawn`: collect the empty coordinates and spawn at one chosen
at random; `choose` returns `None` exactly on the empty collection.  The
random choice is the injected index `pick` (reduced modulo the number of
candidates, as a uniform pick). -/
def Board.spawn (b : Board) (pick : Nat) (four : Bool) : Except Unit Board :=
  match (b.get_cells_by_emptiness true).get?
      (pick % (b.get_cells_by_emptiness true).length) with
  | some coord => b.spawn_at coord four
  | none => Except.error ()

/-- `Board::board_undo`: pop the most recent history entry (`Vec::pop`
removes the last element) and make it the current grid; `Err(())` when the
history is empty. -/
def Board.board_undo (b : Board) : Except Unit Board :=
  match b.history.getLast? with
  | some state => Except.ok ⟨state, b.history.dropLast⟩
  | none => Except.error ()

/-- The direction vocabulary of a shift command. -/
inductive Direction where
  | up
  | down
  | left
  | right
deriving DecidableEq

/-- Modelled from the spec: pushing onto the bounded history (`applyShift`
step a: "Push a copy of the current grid onto History (evicting the oldest
entry if at capacity)"); the eviction policy is absent from the source
(`Board::board_shift` is `todo!()`), so the oldest entries beyond
`HISTORY_SIZE` are dropped. -/
def pushBounded (h : List BoardGrid) (g : BoardGrid) : List BoardGrid :=
  (h ++ [g]).drop ((h ++ [g]).length - HISTORY_SIZE)

/-- Row `r` of the grid as a line, left to right. -/
def rowLine (g : BoardGrid) (r : Fin BOARD_ROWS) : List (Option Cell) :=
  (List.finRange BOARD_COLS).map (fun c => g r c)

/-- Column `c` of the grid as a line, top to bottom. -/
def colLine (g : BoardGrid) (c : Fin BOARD_COLS) : List (Option Cell) :=
  (List.finRange BOARD_ROWS).map (fun r => g r c)

/-- Modelled from the spec: one line-reducer call of `applyShift` step b,
re-oriented so that the commanded side is the start (`rev` reverses the
line before and after `Board::shift_group`). -/
def reduceLine (line : List (Option Cell)) (rev : Bool) :
    Option (Option (List (Option Cell))) :=
  if rev then
    match Board.shift_group line.reverse with
    | none => none
    | some none => some none
    | some (some l) => some (some l.reverse)
  else Board.shift_group line

/-- Modelled from the spec: apply the line reducer to every line
(`applyShift` step b), keeping unchanged lines as they are and recording
whether any line changed; a panic in any reduction propagates. -/
def reduceLines (lines : List (List (Option Cell))) (rev : Bool) :
    Option (List (List (Option Cell)) × Bool) :=
  lines.foldl
    (fun acc line =>
      match acc with
      | none => none
      | some (done, changed) =>
        match reduceLine line rev with
        | none => none
        | some none => some (done ++ [line], changed)
        | some (some l) => some (done ++ [l], true))
    (some ([], false))

/-- Modelled from the spec: `Board::board_shift` is `todo!()` in the
source; spec §4.3 `applyShift`: (a) push the grid onto the bounded
history, (b) reduce every row (`Left`/`Right`) or column (`Up`/`Down`)
toward the commanded side, (c) if no line changed, discard the pushed
entry and fail without mutating the grid, (d) otherwise commit the reduced
grid and attempt `spawnRandom()`, whose failure is not an error for the
move.  `pick`/`four` inject the spawn randomness; the outer `Option`
models a panic inside a line reduction. -/
def Board.board_shift (b : Board) (dir : Direction) (pick : Nat) (four : Bool) :
    Option (Except Unit Board) :=
  let hist := pushBounded b.history b.grid
  let lines : List (List (Option Cell)) :=
    match dir with
    | Direction.left | Direction.right =>
      (List.finRange BOARD_ROWS).map (fun r => rowLine b.grid r)
    | Direction.up | Direction.down =>
      (List.finRange BOARD_COLS).map (fun c => colLine b.grid c)
  let rev : Bool :=
    match dir with
    | Direction.left | Direction.up => false
    | Direction.right | Direction.down => true
  match reduceLines lines rev with
  | none => none
  | some (newLines, changed) =>
    if changed then
      let g' : BoardGrid :=
        match dir with
        | Direction.left | Direction.right =>
          fun r c => (newLines.getD r.val []).getD c.val none
        | Direction.up | Direction.down =>
          fun r c => (newLines.getD c.val []).getD r.val none
      let committed : Board := ⟨g', hist⟩
      match committed.spawn pick four with
      | Except.ok spawned => some (Except.ok spawned)
      | Except.error _ => some (Except.ok committed)
    else some (Except.error ())

/-! ### Predicates used by the claims -/

/-- The value an occupied slot contributes (0 for an empty slot). -/
def optVal : Option Cell → Nat
  | none => 0
  | some c => c.value

/-- Sum of the values of the occupied cells of a line. -/
def lineSum (l : List (Option Cell)) : Nat := (l.map optVal).sum

/-- A line is compacted toward the start when no occupied slot follows an
empty one (the occupied slots form a contiguous initial run). -/
def isCompacted (l : List (Option Cell)) : Bool :=
  (l.dropWhile Option.isSome).all (fun o => o.isNone)

/-- The cell invariant: the value is `2^k` for some `1 ≤ k`, and small
enough to be a `usize` (`k ≤ 63`); in particular it is never 0. -/
def CellInv (c : Cell) : Prop := ∃ k, 1 ≤ k ∧ k ≤ 63 ∧ c.value = 2 ^ k

/-- Every occupied slot of the grid satisfies the cell invariant. -/
def BoardInv (b : Board) : Prop :=
  ∀ (r : Fin BOARD_ROWS) (c : Fin BOARD_COLS) (cell : Cell),
    b.grid r c = some cell → CellInv cell

/-- Executable bound used by the conservation claim: an occupied slot's
value is `2^k` with `1 ≤ k ≤ 62`, so that one merge cannot overflow. -/
def smallPow2 (n : Nat) : Bool :=
  (List.range 62).any (fun k => n == 2 ^ (k + 1))

/-- Executable well-formedness of a whole line: every occupied slot holds
a small power of two. -/
def okLine (l : List (Option Cell)) : Bool :=
  l.all (fun o => match o with | none => true | some c => smallPow2 c.value)

/-- The all-empty grid (used by concrete witnesses). -/
def emptyGrid : BoardGrid := fun _ _ => none

/-- A grid with every slot occupied (used by concrete witnesses). -/
def fullGrid : BoardGrid := fun _ _ => some ⟨2⟩

/-- A board holding a single 2 in the top-right corner with no history
(used by the concrete shift-then-undo witness). -/
def cornerBoard : Board :=
  ⟨fun r c => if r.val = 0 ∧ c.val = 3 then some ⟨2⟩ else none, []⟩

/-- The board obtained by shifting `cornerBoard` left (with injected
randomness `pick = 0`, `four = false`). -/
def cornerBoardShifted : Board :=
  match Board.board_shift cornerBoard Direction.left 0 false with
  | some (Except.ok b2) => b2
  | _ => ⟨emptyGrid, []⟩

/-- A line is well formed when every occupied slot holds `2^k`,
`1 ≤ k ≤ 63`. -/
def LineOk (l : List (Option Cell)) : Prop :=
  ∀ o ∈ l, ∀ c : Cell, o = some c → CellInv c

/-- Invariant carried through the shift loop of `Board::shift_group` after
processing the first `k` indices of a line that started as `l₀` with the
`valid` flag at `v₀`. -/
def ShiftInv (l₀ : List (Option Cell)) (v₀ : Bool) (k : Nat) (st : ShiftState) : Prop :=
  st.res.length = l₀.length ∧
  lineSum st.res = lineSum l₀ ∧
  (∀ t, st.swp = some t → t < k ∧ st.res.getD t none = none) ∧
  (v₀ = true → st.valid = true) ∧
  (st.valid = false → st.res = l₀) ∧
  (st.valid = true → v₀ = true ∨ ∃ s, s < k ∧ l₀.getD s none = none ∧
    (st.res.getD s none).isSome = true ∧ ∀ t, st.swp = some t → s < t)

/-! ### Arithmetic facts about `countOnes` -/

theorem countOnesAux_zero (f : Nat) : countOnesAux f 0 = 0 := by
  cases f <;> rfl

theorem countOnesAux_congr :
    ∀ f₁ f₂ n : Nat, n ≤ f₁ → n ≤ f₂ → countOnesAux f₁ n = countOnesAux f₂ n := by
  intro f₁
  induction f₁ with
  | zero =>
    intro f₂ n h₁ _
    interval_cases n
    simp [countOnesAux_zero]
  | succ f ih =>
    intro f₂ n h₁ h₂
    match n, f₂ with
    | 0, f₂ => simp [countOnesAux_zero]
    | n + 1, 0 => omega
    | n + 1, f₂ + 1 =>
      show (n + 1) % 2 + countOnesAux f ((n + 1) / 2)
          = (n + 1) % 2 + countOnesAux f₂ ((n + 1) / 2)
      have hd : (n + 1) / 2 ≤ f := by omega
      have hd₂ : (n + 1) / 2 ≤ f₂ := by omega
      rw [ih f₂ ((n + 1) / 2) hd hd₂]

theorem countOnes_rec (n : Nat) (h : 0 < n) :
    countOnes n = n % 2 + countOnes (n / 2) := by
  match n, h with
  | n + 1, _ =>
    show countOnesAux (n + 1) (n + 1) = (n + 1) % 2 + countOnes ((n + 1) / 2)
    show (n + 1) % 2 + countOnesAux n ((n + 1) / 2)
        = (n + 1) % 2 + countOnes ((n + 1) / 2)
    rw [countOnesAux_congr n ((n + 1) / 2) ((n + 1) / 2) (by omega) (le_refl _)]
    rfl

theorem countOnes_eq_zero_iff (n : Nat) : countOnes n = 0 ↔ n = 0 := by
  induction n using Nat.strong_induction_on with
  | _ n ih =>
    constructor
    · intro h
      by_contra hne
      have hp : 0 < n := Nat.pos_of_ne_zero hne
      rw [countOnes_rec n hp] at h
      have h₁ : n % 2 = 0 := by omega
      have h₂ : countOnes (n / 2) = 0 := by omega
      have hlt : n / 2 < n := Nat.div_lt_self hp (by norm_num)
      have := (ih (n / 2) hlt).mp h₂
      omega
    · intro h
      subst h
      rfl

theorem countOnes_two_pow (k : Nat) : countOnes (2 ^ k) = 1 := by
  induction k with
  | zero => rfl
  | succ k ihk =>
    have hp : 0 < 2 ^ (k + 1) := Nat.pos_pow_of_pos _ (by norm_num)
    rw [countOnes_rec _ hp]
    have hm : 2 ^ (k + 1) % 2 = 0 := by
      simp [pow_succ, Nat.mul_mod_left]
    have hd : 2 ^ (k + 1) / 2 = 2 ^ k := by
      rw [pow_succ]
      exact Nat.mul_div_cancel _ (by norm_num)
    rw [hm, hd, ihk]

theorem countOnes_eq_one_iff (n : Nat) : countOnes n = 1 ↔ ∃ k, n = 2 ^ k := by
  induction n using Nat.strong_induction_on with
  | _ n ih =>
    constructor
    · intro h
      rcases Nat.eq_zero_or_pos n with h0 | hp
      · subst h0; exact absurd h (by decide)
      rw [countOnes_rec n hp] at h
      rcases Nat.mod_two_eq_zero_or_one n with he | ho
      · have h₂ : countOnes (n / 2) = 1 := by omega
        have hlt : n / 2 < n := Nat.div_lt_self hp (by norm_num)
        obtain ⟨k, hk⟩ := (ih (n / 2) hlt).mp h₂
        refine ⟨k + 1, ?_⟩
        have : n = 2 * (n / 2) := by omega
        rw [this, hk, pow_succ]
        ring
      · have h₂ : countOnes (n / 2) = 0 := by omega
        have : n / 2 = 0 := (countOnes_eq_zero_iff (n / 2)).mp h₂
        have : n = 1 := by omega
        exact ⟨0, by omega⟩
    · rintro ⟨k, rfl⟩
      exact countOnes_two_pow k

/-! ### List helper lemmas -/

theorem getD_set_self :
    ∀ (l : List (Option Cell)) (i : Nat) (x : Option Cell), i < l.length →
      (l.set i x).getD i none = x := by
  intro l
  induction l with
  | nil => intro i x h; simp at h
  | cons a t ih =>
    intro i x h
    cases i with
    | zero => rfl
    | succ n =>
      have : n < t.length := by simpa using h
      simpa using ih n x this

theorem getD_set_ne :
    ∀ (l : List (Option Cell)) (i j : Nat) (x : Option Cell), i ≠ j →
      (l.set i x).getD j none = l.getD j none := by
  intro l
  induction l with
  | nil => intro i j x _; simp
  | cons a t ih =>
    intro i j x hne
    cases i with
    | zero =>
      cases j with
      | zero => exact absurd rfl hne
      | succ m => simp
    | succ n =>
      cases j with
      | zero => simp
      | succ m =>
        have : n ≠ m := by omega
        simpa using ih n m x this

theorem lineSum_cons (o : Option Cell) (t : List (Option Cell)) :
    lineSum (o :: t) = optVal o + lineSum t := by
  simp [lineSum]

theorem lineSum_set :
    ∀ (l : List (Option Cell)) (i : Nat) (x : Option Cell), i < l.length →
      lineSum (l.set i x) + optVal (l.getD i none) = lineSum l + optVal x := by
  intro l
  induction l with
  | nil => intro i x h; simp at h
  | cons a t ih =>
    intro i x h
    cases i with
    | zero =>
      simp only [List.set, List.getD_cons_zero, lineSum_cons]
      omega
    | succ n =>
      have hn : n < t.length := by simpa using h
      have := ih n x hn
      simp only [List.set, List.getD_cons_succ, lineSum_cons]
      omega

theorem getD_mem :
    ∀ (l : List (Option Cell)) (i : Nat) (a : Cell),
      l.getD i none = some a → some a ∈ l := by
  intro l
  induction l with
  | nil => intro i a h; simp [List.getD] at h
  | cons o t ih =>
    intro i a h
    cases i with
    | zero => exact h ▸ List.mem_cons_self _ _
    | succ n => exact List.mem_cons_of_mem _ (ih n a (by simpa using h))

/-! ### Characterizations of `grow` and `merge` -/

theorem grow_ok_iff (c m : Cell) :
    Cell.grow c = GrowResult.ok m ↔
      countOnes c.value = 1 ∧ 1 < c.value ∧ c.value ≠ msbSet ∧
        m.value = c.value * 2 % 2 ^ usizeBits := by
  unfold Cell.grow
  split_ifs with h1 h2 h3
  · simp; omega
  · simp; omega
  · simp; omega
  · constructor
    · intro h
      refine ⟨by omega, by omega, h3, ?_⟩
      cases m
      simpa using (GrowResult.ok.injEq _ _).mp h.symm
    · rintro ⟨_, _, _, hv⟩
      cases m
      simp at hv
      simp [hv]

theorem grow_pow2 (c : Cell) (k : Nat) (h1 : 1 ≤ k) (h2 : k ≤ 62)
    (hv : c.value = 2 ^ k) : Cell.grow c = GrowResult.ok ⟨2 ^ (k + 1)⟩ := by
  rw [grow_ok_iff]
  refine ⟨by rw [hv]; exact countOnes_two_pow k, ?_, ?_, ?_⟩
  · rw [hv]
    calc 1 < 2 ^ 1 := by norm_num
    _ ≤ 2 ^ k := Nat.pow_le_pow_right (by norm_num) h1
  · rw [hv]
    intro h
    have : k = 63 := Nat.pow_right_injective (le_refl 2) h
    omega
  · show 2 ^ (k + 1) = c.value * 2 % 2 ^ usizeBits
    rw [hv, ← pow_succ]
    have hlt : 2 ^ (k + 1) < 2 ^ usizeBits :=
      Nat.pow_lt_pow_right (by norm_num) (by unfold usizeBits; omega)
    exact (Nat.mod_eq_of_lt hlt).symm

theorem grow_ok_inv (c m : Cell) (hc : CellInv c)
    (h : Cell.grow c = GrowResult.ok m) :
    ∃ k, 1 ≤ k ∧ k ≤ 62 ∧ c.value = 2 ^ k ∧ m.value = 2 ^ (k + 1) := by
  obtain ⟨k, hk1, hk63, hkv⟩ := hc
  rw [grow_ok_iff] at h
  obtain ⟨_, _, hmsb, hm⟩ := h
  have hkne : k ≠ 63 := by
    intro hk
    exact hmsb (by rw [hkv, hk]; rfl)
  refine ⟨k, hk1, by omega, hkv, ?_⟩
  rw [hm, hkv, ← pow_succ]
  exact Nat.mod_eq_of_lt (Nat.pow_lt_pow_right (by norm_num) (by unfold usizeBits; omega))

theorem merge_ok (a b m : Cell) (h : Cell.merge a b = MergeResult.ok m) :
    a = b ∧ Cell.grow a = GrowResult.ok m := by
  unfold Cell.merge at h
  split_ifs at h with hab
  case pos =>
    refine ⟨hab, ?_⟩
    cases hg : Cell.grow a with
    | fatal => rw [hg] at h; exact absurd h (by simp)
    | err => rw [hg] at h; exact absurd h (by simp)
    | ok c =>
      rw [hg] at h
      have : c = m := by simpa using h
      rw [this]

/-! ### The shift-loop invariant -/

theorem shiftStep_inv (l₀ : List (Option Cell)) (v₀ : Bool) (k : Nat)
    (st : ShiftState) (hk : k < l₀.length) (h : ShiftInv l₀ v₀ k st) :
    ShiftInv l₀ v₀ (k + 1) (shiftStep st k) := by
  obtain ⟨hlen, hsum, hswp, hmono, hvf, hvt⟩ := h
  cases hw : st.swp with
  | none =>
    cases hr : st.res.getD k none with
    | none =>
      have hstep : shiftStep st k = ⟨st.res, some k, st.valid⟩ := by
        unfold shiftStep
        rw [hw, hr]
      rw [hstep]
      refine ⟨hlen, hsum, ?_, hmono, hvf, ?_⟩
      · intro t ht
        have : k = t := by simpa using ht
        subst this
        exact ⟨Nat.lt_succ_self _, hr⟩
      · intro hv
        rcases hvt hv with hv₀ | ⟨s, hs, h1, h2, _⟩
        · exact Or.inl hv₀
        · refine Or.inr ⟨s, by omega, h1, h2, fun t ht => ?_⟩
          have : k = t := by simpa using ht
          omega
    | some c =>
      have hstep : shiftStep st k = st := by
        unfold shiftStep
        rw [hw, hr]
      rw [hstep]
      refine ⟨hlen, hsum, ?_, hmono, hvf, ?_⟩
      · intro t ht
        rw [hw] at ht
        simp at ht
      · intro hv
        rcases hvt hv with hv₀ | ⟨s, hs, h1, h2, _⟩
        · exact Or.inl hv₀
        · refine Or.inr ⟨s, by omega, h1, h2, fun t ht => ?_⟩
          rw [hw] at ht
          simp at ht
  | some s =>
    cases hr : st.res.getD k none with
    | none =>
      have hstep : shiftStep st k = st := by
        unfold shiftStep
        rw [hw, hr]
      rw [hstep]
      refine ⟨hlen, hsum, ?_, hmono, hvf, ?_⟩
      · intro t ht
        rw [hw] at ht
        have : s = t := by simpa using ht
        subst this
        obtain ⟨h1, h2⟩ := hswp s hw
        exact ⟨by omega, h2⟩
      · intro hv
        rcases hvt hv with hv₀ | ⟨s', hs', h1, h2, h3⟩
        · exact Or.inl hv₀
        · refine Or.inr ⟨s', by omega, h1, h2, fun t ht => ?_⟩
          rw [hw] at ht
          have : s = t := by simpa using ht
          subst this
          exact h3 s hw
    | some c =>
      obtain ⟨hs_lt, hs_none⟩ := hswp s hw
      have hs_ne : s ≠ k := by omega
      have hkres : k < st.res.length := by omega
      have hsres : s < st.res.length := by omega
      have hstep : shiftStep st k = ⟨listSwap st.res s k, none, true⟩ := by
        unfold shiftStep
        rw [hw, hr]
      have hswap :
          listSwap st.res s k = (st.res.set s (some c)).set k none := by
        unfold listSwap
        rw [hr, hs_none]
      have hlen' : (listSwap st.res s k).length = l₀.length := by
        rw [hswap]
        simp [List.length_set, hlen]
      have hgk : (st.res.set s (some c)).getD k none = some c := by
        rw [getD_set_ne st.res s k (some c) hs_ne, hr]
      have hsum₁ :
          lineSum ((st.res.set s (some c)).set k none) + optVal (some c)
            = lineSum (st.res.set s (some c)) + optVal none := by
        have := lineSum_set (st.res.set s (some c)) k none
          (by rw [List.length_set]; omega)
        rw [hgk] at this
        exact this
      have hsum₂ :
          lineSum (st.res.set s (some c)) + optVal (st.res.getD s none)
            = lineSum st.res + optVal (some c) :=
        lineSum_set st.res s (some c) hsres
      rw [hs_none] at hsum₂
      have hsum' : lineSum (listSwap st.res s k) = lineSum l₀ := by
        rw [hswap]
        have h0 : optVal none = 0 := rfl
        rw [h0] at hsum₁ hsum₂
        have hc : optVal (some c) = c.value := rfl
        rw [hc] at hsum₁ hsum₂
        omega
      rw [hstep]
      refine ⟨hlen', hsum', ?_, fun _ => rfl, ?_, ?_⟩
      · intro t ht
        simp at ht
      · intro hfalse
        simp at hfalse
      · intro _
        cases hv : st.valid with
        | false =>
          have hres : st.res = l₀ := hvf hv
          refine Or.inr ⟨s, by omega, ?_, ?_, fun t ht => by simp at ht⟩
          · rw [← hres]
            exact hs_none
          · show ((listSwap st.res s k).getD s none).isSome = true
            rw [hswap, getD_set_ne _ k s none (Ne.symm hs_ne),
              getD_set_self st.res s (some c) hsres]
            rfl
        | true =>
          rcases hvt hv with hv₀ | ⟨s', hs', h1, h2, h3⟩
          · exact Or.inl hv₀
          · have hss : s' < s := h3 s hw
            refine Or.inr ⟨s', by omega, h1, ?_, fun t ht => by simp at ht⟩
            show ((listSwap st.res s k).getD s' none).isSome = true
            rw [hswap, getD_set_ne _ k s' none (by omega),
              getD_set_ne _ s s' (some c) (by omega)]
            exact h2

theorem shiftFold_inv (l₀ : List (Option Cell)) (v₀ : Bool) :
    ∀ k, k ≤ l₀.length →
      ShiftInv l₀ v₀ k ((List.range k).foldl shiftStep ⟨l₀, none, v₀⟩) := by
  intro k
  induction k with
  | zero =>
    intro _
    refine ⟨rfl, rfl, ?_, ?_, ?_, ?_⟩
    · intro t ht; simp at ht
    · intro h; exact h
    · intro _; rfl
    · intro h; exact Or.inl h
  | succ k ih =>
    intro hk
    rw [List.range_succ, List.foldl_append, List.foldl_cons, List.foldl_nil]
    exact shiftStep_inv l₀ v₀ k _ (by omega) (ih (by omega))

theorem shiftPass_inv (l : List (Option Cell)) (v : Bool) :
    ShiftInv l v l.length (shiftPassSt l v) :=
  shiftFold_inv l v l.length (le_refl _)

theorem merge_err (a b : Cell) (h : a.value ≠ b.value) :
    Cell.merge a b = MergeResult.err := by
  unfold Cell.merge
  have : a ≠ b := by
    intro hab
    exact h (by rw [hab])
  simp [this]

/-! ### Consequences of the shift-loop invariant -/

theorem shiftPass_length (l : List (Option Cell)) (v : Bool) :
    (shiftPassSt l v).res.length = l.length :=
  (shiftPass_inv l v).1

theorem shiftPass_sum (l : List (Option Cell)) (v : Bool) :
    lineSum (shiftPassSt l v).res = lineSum l :=
  (shiftPass_inv l v).2.1

theorem shiftPass_valid_of_true (l : List (Option Cell)) :
    (shiftPassSt l true).valid = true :=
  (shiftPass_inv l true).2.2.2.1 rfl

theorem shiftPass_res_of_not_valid (l : List (Option Cell)) (v : Bool)
    (h : (shiftPassSt l v).valid = false) : (shiftPassSt l v).res = l :=
  (shiftPass_inv l v).2.2.2.2.1 h

theorem shiftPass_res_ne_of_valid (l : List (Option Cell))
    (h : (shiftPassSt l false).valid = true) : (shiftPassSt l false).res ≠ l := by
  rcases (shiftPass_inv l false).2.2.2.2.2 h with h₀ | ⟨s, _, hnone, hsome, _⟩
  · exact absurd h₀ (by simp)
  · intro heq
    rw [heq, hnone] at hsome
    simp at hsome

/-! ### The merge loop preserves length, sum and well-formedness -/

theorem mergeOnePair_eq (l out : List (Option Cell)) (i j : Nat)
    (h : mergeOnePair l i j = some out) :
    ∃ a b m, i < j ∧ j < l.length ∧ l.getD i none = some a ∧
      l.getD j none = some b ∧ Cell.merge a b = MergeResult.ok m ∧
      out = (l.set i (some m)).set j none := by
  unfold mergeOnePair at h
  split_ifs at h with hij
  rcases hgi : l.getD i none with _ | a <;> rw [hgi] at h
  · simp at h
  rcases hgj : l.getD j none with _ | b <;> rw [hgj] at h
  · simp at h
  dsimp only at h
  rcases hm : Cell.merge a b with _ | _ | m <;> rw [hm] at h
  · simp at h
  · simp at h
  refine ⟨a, b, m, hij.1, hij.2, rfl, rfl, hm, ?_⟩
  have := Option.some.inj h
  exact this.symm

theorem mergeOnePair_inv (l out : List (Option Cell)) (i j : Nat)
    (h : mergeOnePair l i j = some out) (hok : LineOk l) :
    out.length = l.length ∧ lineSum out = lineSum l ∧ LineOk out := by
  obtain ⟨a, b, m, hij, hjlen, hgi, hgj, hm, hout⟩ := mergeOnePair_eq l out i j h
  have hilen : i < l.length := by omega
  obtain ⟨hab, hgrow⟩ := merge_ok a b m hm
  have hainv : CellInv a := hok (some a) (getD_mem l i a hgi) a rfl
  obtain ⟨k, hk1, hk62, hav, hmv⟩ := grow_ok_inv a m hainv hgrow
  have hne : i ≠ j := by omega
  have hlen : out.length = l.length := by
    rw [hout]
    simp [List.length_set]
  have hgj' : (l.set i (some m)).getD j none = some b := by
    rw [getD_set_ne l i j (some m) hne, hgj]
  have hsum₁ :
      lineSum ((l.set i (some m)).set j none) + optVal (some b)
        = lineSum (l.set i (some m)) + optVal none := by
    have := lineSum_set (l.set i (some m)) j none (by rw [List.length_set]; omega)
    rw [hgj'] at this
    exact this
  have hsum₂ :
      lineSum (l.set i (some m)) + optVal (l.getD i none)
        = lineSum l + optVal (some m) :=
    lineSum_set l i (some m) hilen
  rw [hgi] at hsum₂
  have hsum : lineSum out = lineSum l := by
    rw [hout]
    have hb : optVal (some b) = b.value := rfl
    have hbv : b.value = 2 ^ k := by rw [← hab, hav]
    have hmv' : optVal (some m) = 2 ^ k + 2 ^ k := by
      show m.value = 2 ^ k + 2 ^ k
      rw [hmv, pow_succ]
      ring
    have ha : optVal (some a) = 2 ^ k := by
      show a.value = 2 ^ k
      exact hav
    have h0 : optVal (none : Option Cell) = 0 := rfl
    rw [hb, hbv, h0] at hsum₁
    rw [ha, hmv'] at hsum₂
    omega
  refine ⟨hlen, hsum, ?_⟩
  intro o ho c hc
  rw [hout] at ho
  rcases List.mem_or_eq_of_mem_set ho with ho₁ | ho₁
  · rcases List.mem_or_eq_of_mem_set ho₁ with ho₂ | ho₂
    · exact hok o ho₂ c hc
    · rw [ho₂] at hc
      obtain rfl : m = c := Option.some.inj hc
      exact ⟨k + 1, by omega, by omega, hmv⟩
  · rw [ho₁] at hc
    simp at hc

theorem mergePairs_inv :
    ∀ (ps : List (Nat × Nat)) (l out : List (Option Cell)),
      mergePairs l ps = some out → LineOk l →
      out.length = l.length ∧ lineSum out = lineSum l ∧ LineOk out := by
  intro ps
  induction ps with
  | nil =>
    intro l out h hok
    have : l = out := by simpa [mergePairs] using h
    subst this
    exact ⟨rfl, rfl, hok⟩
  | cons p ps ih =>
    intro l out h hok
    unfold mergePairs at h
    rcases hp : mergeOnePair l p.1 p.2 with _ | l' <;> rw [hp] at h
    · simp at h
    obtain ⟨hl1, hs1, hok1⟩ := mergeOnePair_inv l l' p.1 p.2 hp hok
    obtain ⟨hl2, hs2, hok2⟩ := ih l' out h hok1
    exact ⟨by omega, by omega, hok2⟩

/-! ### Agreement with the repository's own test fixtures -/

theorem get_mergeable_fixtures :
    Board.get_mergeable ([none, none, none, none] : List (Option Cell)) = [] ∧
    Board.get_mergeable [none, none, none, some ⟨2⟩] = [] ∧
    Board.get_mergeable [none, none, some ⟨2⟩, some ⟨2⟩] = [(2, 3)] ∧
    Board.get_mergeable [none, some ⟨2⟩, none, some ⟨2⟩] = [(1, 3)] ∧
    Board.get_mergeable [none, some ⟨2⟩, some ⟨4⟩, some ⟨2⟩] = [] ∧
    Board.get_mergeable [some ⟨2⟩, some ⟨4⟩, some ⟨4⟩, some ⟨2⟩] = [(1, 2)] := by
  repeat constructor <;> decide

theorem shift_group_fixtures :
    Board.shift_group ([none, none, none, none] : List (Option Cell)) = some none ∧
    Board.shift_group [some ⟨2⟩, none, none, none] = some none ∧
    Board.shift_group [none, none, none, some ⟨2⟩]
      = some (some [some ⟨2⟩, none, none, none]) ∧
    Board.shift_group [some ⟨2⟩, some ⟨2⟩, none, none]
      = some (some [some ⟨4⟩, none, none, none]) ∧
    Board.shift_group [some ⟨2⟩, some ⟨4⟩, some ⟨8⟩, some ⟨16⟩] = some none ∧
    Board.shift_group [some ⟨2⟩, some ⟨4⟩, some ⟨2⟩, some ⟨4⟩] = some none ∧
    Board.shift_group [some ⟨2⟩, some ⟨4⟩, some ⟨4⟩, some ⟨2⟩]
      = some (some [some ⟨2⟩, some ⟨8⟩, some ⟨2⟩, none]) := by
  repeat constructor <;> decide

/-! ### Unfolding `Board::shift_group` -/

theorem shift_group_eq (cells : List (Option Cell)) :
    Board.shift_group cells =
      match mergePairs cells (Board.get_mergeable cells) with
      | none => none
      | some merged =>
        some (if (shiftPassSt merged (!(Board.get_mergeable cells).isEmpty)).valid
          then some (shiftPassSt merged (!(Board.get_mergeable cells).isEmpty)).res
          else none) := rfl

theorem okLine_LineOk (l : List (Option Cell)) (h : okLine l = true) : LineOk l := by
  intro o ho c hc
  subst hc
  have := (List.all_eq_true.mp h) (some c) ho
  simp only [smallPow2, List.any_eq_true] at this
  obtain ⟨k, hk, hv⟩ := this
  rw [List.mem_range] at hk
  exact ⟨k + 1, by omega, by omega, by simpa using hv⟩

/-! ### Claims about the line reducer -/

/-- C1: for every input line on which `Board::shift_group` does not panic,
it returns the absent sentinel `None` exactly when no mergeable pair exists
(no merge occurred) and the compaction pass returns the line unchanged (no
cell's position changed); otherwise it returns `Some` of the resulting
line. -/
theorem C1_shift_group_none_iff (cells : List (Option Cell))
    (r : Option (List (Option Cell))) (h : Board.shift_group cells = some r) :
    r = none ↔
      Board.get_mergeable cells = [] ∧ (shiftPassSt cells false).res = cells := by
  rw [shift_group_eq] at h
  rcases hmp : mergePairs cells (Board.get_mergeable cells) with _ | merged <;>
    rw [hmp] at h
  · simp at h
  have hr : r = (if (shiftPassSt merged (!(Board.get_mergeable cells).isEmpty)).valid
      then some (shiftPassSt merged (!(Board.get_mergeable cells).isEmpty)).res
      else none) := (Option.some.inj h).symm
  constructor
  · intro hnone
    rw [hnone] at hr
    have hvalid :
        (shiftPassSt merged (!(Board.get_mergeable cells).isEmpty)).valid = false := by
      cases hv : (shiftPassSt merged (!(Board.get_mergeable cells).isEmpty)).valid
      · rfl
      · rw [hv, if_pos rfl] at hr
        exact absurd hr (by simp)
    rcases hM : Board.get_mergeable cells with _ | ⟨p, ps⟩
    · rw [hM] at hmp
      have hmc : merged = cells := by
        have : some cells = some merged := hmp
        exact (Option.some.inj this).symm
      subst hmc
      rw [hM] at hvalid
      simp only [List.isEmpty_nil, Bool.not_true] at hvalid
      exact ⟨rfl, shiftPass_res_of_not_valid merged false hvalid⟩
    · rw [hM] at hvalid
      have : (shiftPassSt merged true).valid = true :=
        shiftPass_valid_of_true merged
      simp only [List.isEmpty_cons, Bool.not_false] at hvalid
      rw [this] at hvalid
      exact absurd hvalid (by simp)
  · rintro ⟨hM, hfix⟩
    rw [hM] at hmp
    have hmc : merged = cells := by
      have : some cells = some merged := hmp
      exact (Option.some.inj this).symm
    subst hmc
    rw [hM] at hr
    simp only [List.isEmpty_nil, Bool.not_true] at hr
    have hvalid : (shiftPassSt merged false).valid = false := by
      cases hv : (shiftPassSt merged false).valid
      · rfl
      · exact absurd hfix (shiftPass_res_ne_of_valid merged hv)
    rw [hvalid, if_neg (by simp)] at hr
    exact hr

/-- Witness for C1 at the concrete all-empty line, where the reducer
reports no change. -/
theorem C1_witness :
    ((none : Option (List (Option Cell))) = none ↔
      Board.get_mergeable ([none, none, none, none] : List (Option Cell)) = [] ∧
        (shiftPassSt ([none, none, none, none] : List (Option Cell)) false).res
          = [none, none, none, none]) :=
  C1_shift_group_none_iff [none, none, none, none] none rfl

/-- C2 (failing input): on the line `[_, 2, _, 4]` the code returns
`Some [2, _, 4, _]`, whose occupied cells do not form a contiguous run at
the target edge — the swap index is reset instead of advanced after each
swap, so a gap is left behind. -/
theorem C2_compaction_gap :
    Board.shift_group [none, some ⟨2⟩, none, some ⟨4⟩]
        = some (some [some ⟨2⟩, none, some ⟨4⟩, none]) ∧
      isCompacted [some ⟨2⟩, none, some ⟨4⟩, none] = false := by
  constructor <;> decide

/-- C3: reducing `[2, 2, 2, 2]` toward the start yields `[4, 4, _, _]`;
the merge pairs are exactly the non-overlapping `(0, 1)` and `(2, 3)` —
the middle pair `(1, 2)` is never selected and no tile merges twice. -/
theorem C3_four_twos :
    Board.shift_group [some ⟨2⟩, some ⟨2⟩, some ⟨2⟩, some ⟨2⟩]
        = some (some [some ⟨4⟩, some ⟨4⟩, none, none]) ∧
      Board.get_mergeable [some ⟨2⟩, some ⟨2⟩, some ⟨2⟩, some ⟨2⟩]
        = [(0, 1), (2, 3)] := by
  constructor <;> decide

/-- C10: when every occupied slot of the input holds a power of two small
enough that no merge overflows, a returned line has the same length as the
input and the same total value over occupied slots. -/
theorem C10_shift_group_conserves (cells r : List (Option Cell))
    (hok : okLine cells = true)
    (h : Board.shift_group cells = some (some r)) :
    r.length = cells.length ∧ lineSum r = lineSum cells := by
  rw [shift_group_eq] at h
  rcases hmp : mergePairs cells (Board.get_mergeable cells) with _ | merged <;>
    rw [hmp] at h
  · simp at h
  obtain ⟨hlen, hsum, _⟩ :=
    mergePairs_inv (Board.get_mergeable cells) cells merged hmp (okLine_LineOk cells hok)
  dsimp only at h
  have hr : (if (shiftPassSt merged (!(Board.get_mergeable cells).isEmpty)).valid
      then some (shiftPassSt merged (!(Board.get_mergeable cells).isEmpty)).res
      else none) = some r := Option.some.inj h
  cases hv : (shiftPassSt merged (!(Board.get_mergeable cells).isEmpty)).valid
  · rw [hv, if_neg (by simp)] at hr
    exact absurd hr (by simp)
  · rw [hv, if_pos rfl] at hr
    have hrr : r = (shiftPassSt merged (!(Board.get_mergeable cells).isEmpty)).res :=
      (Option.some.inj hr).symm
    rw [hrr]
    constructor
    · rw [shiftPass_length merged _]
      exact hlen
    · rw [shiftPass_sum merged _]
      exact hsum

/-- Witness for C10 at the concrete line `[2, 2, _, _]`, reduced to
`[4, _, _, _]`. -/
theorem C10_witness :
    ([some ⟨4⟩, none, none, none] : List (Option Cell)).length
        = ([some ⟨2⟩, some ⟨2⟩, none, none] : List (Option Cell)).length ∧
      lineSum [some ⟨4⟩, none, none, none]
        = lineSum [some ⟨2⟩, some ⟨2⟩, none, none] :=
  C10_shift_group_conserves [some ⟨2⟩, some ⟨2⟩, none, none]
    [some ⟨4⟩, none, none, none] (by decide) (by decide)

/-! ### Claims about cells -/

/-- C4 (counterexample): for `v = 2^63` — a value `Cell::new` accepts, see
the repository's `test_new_msb` — merging two equal cells does not succeed:
`grow()` returns `Err` and the `unwrap()` panics. -/
theorem C4_counterexample :
    Cell.merge ⟨2 ^ 63⟩ ⟨2 ^ 63⟩ = MergeResult.fatal := by decide

/-- C4 (amended): for every power-of-two value `v = 2^k` with
`2 ≤ v < 2^63`, merging two cells of value `v` succeeds and yields one
cell of value `2v`; in the `shift_group` use the other slot becomes
absent; merging cells of unequal value fails (`Err`) mutating neither. -/
theorem C4_merge_amended :
    (∀ (a b : Cell) (k : Nat), 1 ≤ k → k ≤ 62 → a.value = 2 ^ k →
      b.value = 2 ^ k → Cell.merge a b = MergeResult.ok ⟨2 ^ (k + 1)⟩) ∧
    (∀ a b : Cell, a.value ≠ b.value → Cell.merge a b = MergeResult.err) ∧
    (∀ (l out : List (Option Cell)) (i j : Nat),
      mergeOnePair l i j = some out → out.getD j none = none) := by
  refine ⟨?_, merge_err, ?_⟩
  · intro a b k hk1 hk62 ha hb
    have hab : a = b := by
      cases a
      cases b
      simp only at ha hb
      rw [ha, hb]
    unfold Cell.merge
    rw [if_pos hab, grow_pow2 a k hk1 hk62 ha]
  · intro l out i j h
    obtain ⟨a, b, m, hij, hjlen, _, _, _, hout⟩ := mergeOnePair_eq l out i j h
    rw [hout]
    exact getD_set_self (l.set i (some m)) j none (by rw [List.length_set]; omega)

/-- Witness for C4 (amended) at two cells of value 2, merged into 4, and at
values 2 versus 4, which fail to merge. -/
theorem C4_witness :
    Cell.merge ⟨2⟩ ⟨2⟩ = MergeResult.ok ⟨2 ^ (1 + 1)⟩ ∧
      Cell.merge ⟨2⟩ ⟨4⟩ = MergeResult.err :=
  ⟨C4_merge_amended.1 ⟨2⟩ ⟨2⟩ 1 (by decide) (by decide) rfl rfl,
    C4_merge_amended.2.1 ⟨2⟩ ⟨4⟩ (by decide)⟩

/-- C5: `Cell::grow` doubles any power-of-two value `2 ≤ v ≤ 2^62` (i.e.
below half the representable range) and fails with `Err`, mutating
nothing, on the maximum representable power of two `2^63`. -/
theorem C5_grow (c : Cell) :
    (∀ k, 1 ≤ k → k ≤ 62 → c.value = 2 ^ k →
      Cell.grow c = GrowResult.ok ⟨2 ^ (k + 1)⟩) ∧
    (c.value = 2 ^ 63 → Cell.grow c = GrowResult.err) := by
  constructor
  · intro k h1 h2 hv
    exact grow_pow2 c k h1 h2 hv
  · intro hv
    unfold Cell.grow
    have h1 : countOnes c.value = 1 := by
      rw [hv]
      exact countOnes_two_pow 63
    have h2 : ¬ c.value ≤ 1 := by
      rw [hv]
      norm_num
    have h3 : c.value = msbSet := by
      rw [hv]
      rfl
    rw [if_neg (by omega), if_neg h2, if_pos h3]

/-- Witness for C5 at the cell of value 2, grown to 4. -/
theorem C5_witness : Cell.grow ⟨2⟩ = GrowResult.ok ⟨2 ^ (1 + 1)⟩ :=
  (C5_grow ⟨2⟩).1 1 (by decide) (by decide) rfl

/-! ### Claims about the board -/

theorem mem_empty_coords (b : Board) (p : Fin BOARD_ROWS × Fin BOARD_COLS) :
    p ∈ b.get_cells_by_emptiness true ↔ b.grid p.1 p.2 = none := by
  unfold Board.get_cells_by_emptiness Board.get_cells_by_emptiness_row
  constructor
  · intro hp
    rw [List.mem_flatMap] at hp
    obtain ⟨row, _, hp⟩ := hp
    rw [List.mem_map] at hp
    obtain ⟨col, hcol, heq⟩ := hp
    rw [List.mem_filter] at hcol
    have hrow : p.1 = row := by rw [← heq]
    have hcol' : p.2 = col := by rw [← heq]
    rw [hrow, hcol']
    have := hcol.2
    simp only [beq_iff_eq] at this
    exact Option.isNone_iff_eq_none.mp this.symm
  · intro hp
    rw [List.mem_flatMap]
    refine ⟨p.1, List.mem_finRange _, ?_⟩
    rw [List.mem_map]
    refine ⟨p.2, ?_, rfl⟩
    rw [List.mem_filter]
    refine ⟨List.mem_finRange _, ?_⟩
    simp [hp]

/-- C6: `Board::board_undo` fails exactly when the history is empty (and
then changes nothing); on a non-empty history it pops the most recent
entry (the last pushed) and makes it the current grid. -/
theorem C6_board_undo (b : Board) :
    (Board.board_undo b = Except.error () ↔ b.history = []) ∧
    (∀ g, b.history.getLast? = some g →
      Board.board_undo b = Except.ok ⟨g, b.history.dropLast⟩) := by
  constructor
  · constructor
    · intro h
      unfold Board.board_undo at h
      rcases hg : b.history.getLast? with _ | g <;> rw [hg] at h
      · exact List.getLast?_eq_none_iff.mp hg
      · exact absurd h (by simp)
    · intro h
      unfold Board.board_undo
      rw [h]
      rfl
  · intro g hg
    unfold Board.board_undo
    rw [hg]

/-- Witness for C6 at a board whose history holds one saved grid. -/
theorem C6_witness :
    Board.board_undo ⟨emptyGrid, [emptyGrid]⟩
      = Except.ok ⟨emptyGrid, List.dropLast [emptyGrid]⟩ :=
  (C6_board_undo ⟨emptyGrid, [emptyGrid]⟩).2 emptyGrid rfl

/-- C7: `Board::spawn` fails exactly when no empty coordinate exists;
otherwise exactly one previously empty slot receives the spawned cell and
every other slot (and the history) is unchanged. -/
theorem C7_spawn (b : Board) (pick : Nat) (four : Bool) :
    (Board.spawn b pick four = Except.error () ↔
      ∀ (r : Fin BOARD_ROWS) (c : Fin BOARD_COLS), b.grid r c ≠ none) ∧
    (∀ b2, Board.spawn b pick four = Except.ok b2 →
      ∃ p : Fin BOARD_ROWS × Fin BOARD_COLS,
        b.grid p.1 p.2 = none ∧
        b2.grid p.1 p.2 = some (Cell.default four) ∧
        (∀ (r : Fin BOARD_ROWS) (c : Fin BOARD_COLS), ¬(r = p.1 ∧ c = p.2) →
          b2.grid r c = b.grid r c) ∧
        b2.history = b.history) := by
  constructor
  · constructor
    · intro h r c hempty
      unfold Board.spawn at h
      rcases hg : (b.get_cells_by_emptiness true).get?
          (pick % (b.get_cells_by_emptiness true).length) with _ | coord <;>
        rw [hg] at h
      · rw [List.get?_eq_none] at hg
        have hmem : (r, c) ∈ b.get_cells_by_emptiness true :=
          (mem_empty_coords b (r, c)).mpr hempty
        have hpos : 0 < (b.get_cells_by_emptiness true).length :=
          List.length_pos_of_mem hmem
        have := Nat.mod_lt pick hpos
        omega
      · have hmem : coord ∈ b.get_cells_by_emptiness true := List.get?_mem hg
        have hc : b.grid coord.1 coord.2 = none := (mem_empty_coords b coord).mp hmem
        unfold Board.spawn_at at h
        dsimp only at h
        rw [if_pos hc] at h
        exact absurd h (by simp)
    · intro hfull
      unfold Board.spawn
      have he : b.get_cells_by_emptiness true = [] := by
        rcases he : b.get_cells_by_emptiness true with _ | ⟨p, ps⟩
        · rfl
        · have hmem : p ∈ b.get_cells_by_emptiness true := by
            rw [he]
            exact List.mem_cons_self _ _
          have := (mem_empty_coords b p).mp hmem
          exact absurd this (hfull p.1 p.2)
      rw [he]
      rfl
  · intro b2 h
    unfold Board.spawn at h
    rcases hg : (b.get_cells_by_emptiness true).get?
        (pick % (b.get_cells_by_emptiness true).length) with _ | coord <;>
      rw [hg] at h
    · exact absurd h (by simp)
    · have hmem : coord ∈ b.get_cells_by_emptiness true := List.get?_mem hg
      have hc : b.grid coord.1 coord.2 = none := (mem_empty_coords b coord).mp hmem
      unfold Board.spawn_at at h
      dsimp only at h
      rw [if_pos hc] at h
      obtain rfl : _ = b2 := Except.ok.inj h
      refine ⟨coord, hc, ?_, ?_, ?_⟩
      · exact if_pos ⟨rfl, rfl⟩
      · intro r c hne
        exact if_neg hne
      · rfl

/-- Witness for C7 at the completely full board, where spawning fails. -/
theorem C7_witness :
    Board.spawn ⟨fullGrid, []⟩ 0 false = Except.error () :=
  (C7_spawn ⟨fullGrid, []⟩ 0 false).1.mpr
    (fun _ _ h => Option.noConfusion h)

/-- C8: every present cell produced by `Cell::new`, `Cell::default`,
`Cell::grow`, `Cell::merge` or board spawning holds an exact power of two
`2^k` with `k ≥ 1` (hence never 0), and spawning preserves the grid-wide
invariant. -/
theorem C8_cell_invariant :
    (∀ v : Nat, v < 2 ^ usizeBits → ∀ c : Cell, Cell.new v = some c → CellInv c) ∧
    (∀ four : Bool, CellInv (Cell.default four)) ∧
    (∀ c m : Cell, CellInv c → Cell.grow c = GrowResult.ok m → CellInv m) ∧
    (∀ a b m : Cell, CellInv a → Cell.merge a b = MergeResult.ok m → CellInv m) ∧
    (∀ (b : Board) (pos : Fin BOARD_ROWS × Fin BOARD_COLS) (four : Bool)
      (b2 : Board), BoardInv b → Board.spawn_at b pos four = Except.ok b2 →
        BoardInv b2) ∧
    (∀ (b : Board) (pick : Nat) (four : Bool) (b2 : Board),
      BoardInv b → Board.spawn b pick four = Except.ok b2 → BoardInv b2) := by
  have hdefault : ∀ four : Bool, CellInv (Cell.default four) := by
    intro four
    cases four
    · exact ⟨1, by omega, by omega, rfl⟩
    · exact ⟨2, by omega, by omega, rfl⟩
  have hspawn_at : ∀ (b : Board) (pos : Fin BOARD_ROWS × Fin BOARD_COLS)
      (four : Bool) (b2 : Board), BoardInv b →
      Board.spawn_at b pos four = Except.ok b2 → BoardInv b2 := by
    intro b pos four b2 hb h
    unfold Board.spawn_at at h
    split_ifs at h with hempty
    obtain rfl : _ = b2 := Except.ok.inj h
    intro r c cell hcell
    dsimp only at hcell
    by_cases hp : r = pos.1 ∧ c = pos.2
    · rw [if_pos hp] at hcell
      obtain rfl : Cell.default four = cell := Option.some.inj hcell
      exact hdefault four
    · rw [if_neg hp] at hcell
      exact hb r c cell hcell
  refine ⟨?_, hdefault, ?_, ?_, hspawn_at, ?_⟩
  · intro v hv c h
    unfold Cell.new at h
    split_ifs at h with hcond
    push_neg at hcond
    obtain rfl : (⟨v⟩ : Cell) = c := Option.some.inj h
    obtain ⟨k, hk⟩ := (countOnes_eq_one_iff v).mp hcond.1
    refine ⟨k, ?_, ?_, hk⟩
    · by_contra hk0
      have : k = 0 := by omega
      subst this
      simp at hk
      omega
    · by_contra hk63
      have h64 : 64 ≤ k := by omega
      have : 2 ^ 64 ≤ 2 ^ k := Nat.pow_le_pow_right (by norm_num) h64
      rw [← hk] at this
      unfold usizeBits at hv
      omega
  · intro c m hc h
    obtain ⟨k, hk1, hk62, _, hm⟩ := grow_ok_inv c m hc h
    exact ⟨k + 1, by omega, by omega, hm⟩
  · intro a b m ha h
    obtain ⟨-, hgrow⟩ := merge_ok a b m h
    obtain ⟨k, hk1, hk62, _, hm⟩ := grow_ok_inv a m ha hgrow
    exact ⟨k + 1, by omega, by omega, hm⟩
  · intro b pick four b2 hb h
    unfold Board.spawn at h
    rcases hg : (b.get_cells_by_emptiness true).get?
        (pick % (b.get_cells_by_emptiness true).length) with _ | coord <;>
      rw [hg] at h
    · exact absurd h (by simp)
    · exact hspawn_at b coord four b2 hb h

/-- Witness for C8 projecting the `Cell::default` component at the
concrete draw of a 4. -/
theorem C8_witness : CellInv (Cell.default true) :=
  C8_cell_invariant.2.1 true

/-! ### Shift followed by undo (C9) -/

theorem pushBounded_eq (h : List BoardGrid) (g : BoardGrid) :
    pushBounded h g = [g] := by
  unfold pushBounded HISTORY_SIZE
  have hlen : (h ++ [g]).length = h.length + 1 := by simp
  rw [hlen, Nat.add_sub_cancel, List.drop_left]

theorem spawn_at_history (b : Board) (pos : Fin BOARD_ROWS × Fin BOARD_COLS)
    (four : Bool) (b2 : Board) (h : Board.spawn_at b pos four = Except.ok b2) :
    b2.history = b.history := by
  unfold Board.spawn_at at h
  split_ifs at h
  obtain rfl : _ = b2 := Except.ok.inj h
  rfl

theorem spawn_history (b : Board) (pick : Nat) (four : Bool) (b2 : Board)
    (h : Board.spawn b pick four = Except.ok b2) : b2.history = b.history := by
  unfold Board.spawn at h
  rcases hg : (b.get_cells_by_emptiness true).get?
      (pick % (b.get_cells_by_emptiness true).length) with _ | coord <;>
    rw [hg] at h
  · exact absurd h (by simp)
  · exact spawn_at_history b coord four b2 h

theorem board_shift_history (b : Board) (dir : Direction) (pick : Nat)
    (four : Bool) (b2 : Board)
    (h : Board.board_shift b dir pick four = some (Except.ok b2)) :
    b2.history = [b.grid] := by
  unfold Board.board_shift at h
  cases dir <;> dsimp only at h <;>
  · rcases hr : reduceLines _ _ with _ | ⟨nl, ch⟩ <;> rw [hr] at h
    · exact absurd h (by simp)
    · dsimp only at h
      cases ch
      · rw [if_neg (by simp)] at h
        exact absurd (Option.some.inj h) (by simp)
      · rw [if_pos rfl] at h
        rcases hs : Board.spawn _ pick four with e | s <;> rw [hs] at h
        · obtain rfl : _ = b2 := Except.ok.inj (Option.some.inj h)
          exact pushBounded_eq b.history b.grid
        · obtain rfl : s = b2 := Except.ok.inj (Option.some.inj h)
          rw [spawn_history _ pick four _ hs]
          exact pushBounded_eq b.history b.grid

/-- C9: if a shift move succeeds — it then changed the grid from `G` to
the committed/spawned `G'` — the following undo succeeds and restores
exactly the pre-shift grid `G`. -/
theorem C9_shift_then_undo (b : Board) (dir : Direction) (pick : Nat)
    (four : Bool) (b2 : Board)
    (h : Board.board_shift b dir pick four = some (Except.ok b2)) :
    ∃ b3, Board.board_undo b2 = Except.ok b3 ∧ b3.grid = b.grid := by
  have hh : b2.history = [b.grid] := board_shift_history b dir pick four b2 h
  refine ⟨⟨b.grid, List.dropLast [b.grid]⟩, ?_, rfl⟩
  unfold Board.board_undo
  rw [hh]
  rfl

/-- Witness for C9: shifting the corner board left succeeds, and the undo
restores its original grid. -/
theorem C9_witness :
    ∃ b3, Board.board_undo cornerBoardShifted = Except.ok b3 ∧
      b3.grid = cornerBoard.grid :=
  C9_shift_then_undo cornerBoard Direction.left 0 false cornerBoardShifted rfl

end Pow2
